import Mathlib

/-!
# Verification of the moq-rs relay core

Shallow embedding of the moq-rs sources (moq-transport coding and session
layers, moq-relay-ietf Locals registry and FileCoordinator) together with
proofs about the embedded operations.

Conventions:
* Machine bytes are `Nat` values `< 256`; byte strings are `List Nat`.
* Rust `u64` arithmetic that can overflow is modelled with an explicit
  `% 2 ^ 64`.
* Fallible Rust code returning `Result` is modelled with `Except`.
* `HashMap`s are modelled as association lists in iteration order; key
  uniqueness, guaranteed by the hash map, is an explicit hypothesis where a
  proof needs it.
-/

/-- Byte value used by the wire model (a Rust `u8`; values kept `< 256` by
construction of every encoder). -/
abbrev Byte := Nat

/-- One field of a `TrackNamespace` (src/moq-transport/src/coding/track_namespace.rs):
`pub struct TupleField { pub value: Vec<u8> }` (struct shape taken from the
test module's literal `TupleField { value: ... }`). `String::from_utf8_lossy`
is modelled as the identity on bytes, which is exact for valid UTF-8. -/
structure TupleField where
  value : List Byte
deriving DecidableEq, Repr

/-- Rust `TupleField::MAX_VALUE_SIZE` (4096, from the `try_from_field_too_large`
test expecting `FieldTooLarge(4097, 4096)`). -/
def TupleField.MAX_VALUE_SIZE : Nat := 4096

/-- Rust `TupleField::from_utf8(part)`: the field whose value is the UTF-8 bytes of
`part`; in the byte-level model the argument is already the byte string. -/
def TupleField.fromUtf8 (part : List Byte) : TupleField := ⟨part⟩

/-- Rust `TrackNamespace` (src/moq-transport/src/coding/track_namespace.rs):
`pub struct TrackNamespace { pub fields: Vec<TupleField> }`. -/
structure TrackNamespace where
  fields : List TupleField
deriving DecidableEq, Repr

/-- Rust `TrackNamespace::MAX_FIELDS` (= 32). -/
def TrackNamespace.MAX_FIELDS : Nat := 32

/-- The byte value of the path separator character. -/
def slashByte : Byte := 47

/-- Rust `str::split('/')` at the byte level: splits on byte 47 and keeps
empty segments ( `"".split('/')` yields one empty segment, `"/"` yields two).
Byte 47 in valid UTF-8 always stands for the character `/`. -/
def splitOnSlash : List Byte → List (List Byte)
  | [] => [[]]
  | b :: rest =>
    if b = slashByte then [] :: splitOnSlash rest
    else
      match splitOnSlash rest with
      | [] => [[b]]
      | p :: ps => (b :: p) :: ps

/-- Rust `TrackNamespace::to_utf8_path`: pushes a slash then the (lossily decoded)
field bytes, for every field in order. -/
def TrackNamespace.toUtf8Path (ns : TrackNamespace) : List Byte :=
  go ns.fields
where
  /-- The loop `for field in &self.fields { path.push('/'); path.push_str(..) }`. -/
  go : List TupleField → List Byte
    | [] => []
    | f :: fs => (slashByte :: f.value) ++ go fs

/-- Rust `TrackNamespace::from_utf8_path`: one field per slash-separated segment,
empty segments kept. -/
def TrackNamespace.fromUtf8Path (path : List Byte) : TrackNamespace :=
  ⟨(splitOnSlash path).map TupleField.fromUtf8⟩

/-!
## Wire codec

`usize`/`u64` values are carried as QUIC variable-length integers and a
`TupleField` as a length-prefixed byte string. The `coding` module that
implements `Encode`/`Decode` for integers and `TupleField` is not part of the
source tree here (only `track_namespace.rs` is), so those two codecs are
modelled from the spec; `TrackNamespace::{encode,decode}` below then follow
the source exactly.
-/

/-- Modelled from the spec: encoder error kinds of the missing `coding`
module — bounds violations surfaced by `TrackNamespace::encode`
(`EncodeError::FieldBoundsExceeded`) and oversized varints. -/
inductive EncodeError where
  | FieldBoundsExceeded (ctx : String)
  | VarIntBoundsExceeded
deriving DecidableEq, Repr

/-- Modelled from the spec: decoder error kinds of the missing `coding`
module — bounds violations (`DecodeError::FieldBoundsExceeded`) and a buffer
too short for the announced data. -/
inductive DecodeError where
  | FieldBoundsExceeded (ctx : String)
  | More
deriving DecidableEq, Repr

/-- The `k` big-endian base-256 digits of `n` (for `n < 256 ^ k`). -/
def beBytes : Nat → Nat → List Byte
  | 0, _ => []
  | k + 1, n => n / 256 ^ k :: beBytes k (n % 256 ^ k)

/-- Accumulate big-endian bytes onto `a`. -/
def readBE (a : Nat) (bs : List Byte) : Nat :=
  bs.foldl (fun x b => x * 256 + b) a

/-- Modelled from the spec: `usize::encode` / `u64::encode` — the QUIC
variable-length integer of MoQ Transport draft-14. A 2-bit length prefix on
the first byte selects a 1-, 2-, 4- or 8-byte encoding; values `≥ 2 ^ 62` do
not fit and fail with `VarIntBoundsExceeded`. -/
def varintEncode (n : Nat) : Except EncodeError (List Byte) :=
  if n < 2 ^ 6 then .ok [n]
  else if n < 2 ^ 14 then .ok ((64 + n / 2 ^ 8) :: beBytes 1 (n % 2 ^ 8))
  else if n < 2 ^ 30 then .ok ((128 + n / 2 ^ 24) :: beBytes 3 (n % 2 ^ 24))
  else if n < 2 ^ 62 then .ok ((192 + n / 2 ^ 56) :: beBytes 7 (n % 2 ^ 56))
  else .error .VarIntBoundsExceeded

/-- Modelled from the spec: `usize::decode` / `u64::decode` — reads the 2-bit
length prefix, then the remaining bytes of the varint; fails with `More` when
the buffer is shorter than announced. Returns the value and the unconsumed
tail. -/
def varintDecode : List Byte → Except DecodeError (Nat × List Byte)
  | [] => .error .More
  | b :: rest =>
    let extra := 2 ^ (b / 64) - 1
    if rest.length < extra then .error .More
    else .ok (readBE (b % 64) (rest.take extra), rest.drop extra)


/-- Modelled from the spec: `TupleField::encode` — the field's byte length as
a varint, then its raw bytes (wire format of draft-14 tuple fields, visible
in the `encode_decode` test's expected bytes). -/
def TupleField.encode (f : TupleField) : Except EncodeError (List Byte) :=
  match varintEncode f.value.length with
  | .error e => .error e
  | .ok lenBytes => .ok (lenBytes ++ f.value)

/-- Modelled from the spec: `TupleField::decode` — reads the varint length,
then that many bytes; fails with `More` when the buffer is shorter. -/
def TupleField.decode (b : List Byte) : Except DecodeError (TupleField × List Byte) :=
  match varintDecode b with
  | .error e => .error e
  | .ok (len, rest) =>
    if rest.length < len then .error .More
    else .ok (⟨rest.take len⟩, rest.drop len)

/-- The `for field in &self.fields { field.encode(w)? }` loop of
`TrackNamespace::encode`. -/
def encodeFieldsLoop : List TupleField → Except EncodeError (List Byte)
  | [] => .ok []
  | f :: fs =>
    match f.encode with
    | .error e => .error e
    | .ok b =>
      match encodeFieldsLoop fs with
      | .error e => .error e
      | .ok bs => .ok (b ++ bs)

/-- The `for _ in 0..count { fields.push(TupleField::decode(r)?) }` loop of
`TrackNamespace::decode`. -/
def decodeFieldsLoop : Nat → List Byte → Except DecodeError (List TupleField × List Byte)
  | 0, r => .ok ([], r)
  | k + 1, r =>
    match TupleField.decode r with
    | .error e => .error e
    | .ok (f, r') =>
      match decodeFieldsLoop k r' with
      | .error e => .error e
      | .ok (fs, r'') => .ok (f :: fs, r'')

/-- Rust `TrackNamespace::encode` (src/moq-transport/src/coding/track_namespace.rs,
lines 79-92): reject more than `MAX_FIELDS` fields, then write the field
count followed by every field. -/
def TrackNamespace.encode (ns : TrackNamespace) : Except EncodeError (List Byte) :=
  if ns.fields.length > TrackNamespace.MAX_FIELDS then
    .error (.FieldBoundsExceeded "TrackNamespace tuples")
  else
    match varintEncode ns.fields.length with
    | .error e => .error e
    | .ok countBytes =>
      match encodeFieldsLoop ns.fields with
      | .error e => .error e
      | .ok body => .ok (countBytes ++ body)

/-- Rust `TrackNamespace::decode` (src/moq-transport/src/coding/track_namespace.rs,
lines 62-77): read the count, reject counts above `MAX_FIELDS`, then read
that many fields. -/
def TrackNamespace.decode (b : List Byte) : Except DecodeError (TrackNamespace × List Byte) :=
  match varintDecode b with
  | .error e => .error e
  | .ok (count, rest) =>
    if count > TrackNamespace.MAX_FIELDS then
      .error (.FieldBoundsExceeded "TrackNamespace tuples")
    else
      match decodeFieldsLoop count rest with
      | .error e => .error e
      | .ok (fields, rest') => .ok (⟨fields⟩, rest')

/-!
## Locals registry (src/moq-relay-ietf/src/local.rs)

The `HashMap<TrackNamespace, TracksReader>` behind the mutex is modelled as
an association list in iteration order; the stored `TracksReader` is an
arbitrary value type `α`. The hash map keeps keys unique, which is an
explicit `Nodup` hypothesis where a theorem needs it.
-/

/-- Modelled from the spec: the error kinds of `serve::ServeError` the
session and registry code constructs (the `serve` module is not in the
source tree). -/
inductive ServeError where
  | Duplicate
  | Cancel
  | Closed (code : Nat)
  | NotFoundCtx (ctx : String)
  | InternalCtx (ctx : String)
deriving DecidableEq, Repr

/-- Spec-side element-wise prefix relation: `a` equals the leading elements
of `b`. Used to state what the spec's "longest element-wise prefix" means,
to be compared with the scans the code performs. -/
def leadsList {β : Type} (a b : List β) : Prop :=
  b.take a.length = a

instance {β : Type} [DecidableEq β] (a b : List β) : Decidable (leadsList a b) := by
  unfold leadsList; infer_instance

/-- The code's check that `reg` is an element-wise prefix of `ns` given
`ns.fields.len() >= reg.fields.len()`:
`reg.fields.iter().zip(ns.fields.iter()).all(|(a, b)| a == b)`. -/
def isPrefixOfFields (a b : List TupleField) : Bool :=
  (a.zip b).all fun p => p.1 == p.2

/-- The `for (registered_ns, tracks) in lookup.iter()` loop of
`Locals::retrieve`, carrying `best_match` and `best_len`. -/
def retrieveLoop {α : Type} (ns : TrackNamespace) :
    List (TrackNamespace × α) → Option α → Nat → Option α
  | [], best, _ => best
  | (reg, tracks) :: t, best, bestLen =>
    if reg.fields.length ≤ ns.fields.length then
      if isPrefixOfFields reg.fields ns.fields ∧ bestLen < reg.fields.length then
        retrieveLoop ns t (some tracks) reg.fields.length
      else retrieveLoop ns t best bestLen
    else retrieveLoop ns t best bestLen

/-- Rust `Locals::retrieve` (src/moq-relay-ietf/src/local.rs, lines 51-75):
longest-matching-prefix scan over the registry, starting from no match and
`best_len = 0`. -/
def Locals.retrieve {α : Type} (lookup : List (TrackNamespace × α))
    (ns : TrackNamespace) : Option α :=
  retrieveLoop ns lookup none 0

/-- Rust `Locals::register` (src/moq-relay-ietf/src/local.rs, lines 32-47): fail
with `Duplicate` when the namespace is already a key, leaving the map
untouched; otherwise insert the entry. -/
def Locals.register {α : Type} (lookup : List (TrackNamespace × α))
    (tracks : TrackNamespace × α) : Except ServeError (List (TrackNamespace × α)) :=
  if lookup.any fun p => p.1 == tracks.1 then .error .Duplicate
  else .ok (tracks :: lookup)

/-- Rust `Registration::drop` (src/moq-relay-ietf/src/local.rs, lines 84-88):
`self.locals.lookup.lock().unwrap().remove(&self.namespace)`. -/
def Registration.drop {α : Type} (lookup : List (TrackNamespace × α))
    (ns : TrackNamespace) : List (TrackNamespace × α) :=
  lookup.filter fun p => !(p.1 == ns)

/-!
## Session engine (src/moq-transport/src/session/mod.rs)
-/

/-- Modelled from the spec (§7 error kinds; `session/error.rs` is not in the
source tree): the `SessionError` variants the embedded code constructs.
`Serve`, `Duplicate`, `Version`, `RoleViolation`, `WrongSize` and
`Unimplemented` are distinct kinds, matching the spec's error table. -/
inductive SessionError where
  | Version (clientVersions serverVersions : List Nat)
  | RoleViolation
  | Duplicate
  | Serve (err : ServeError)
  | WrongSize
  | Unimplemented (what : String)
deriving DecidableEq, Repr

/-- The fold behind Rust's `Iterator::max` on the filtered version list. -/
def iterMax (l : List Nat) : Option Nat :=
  l.foldl (fun acc x =>
    match acc with
    | none => some x
    | some m => some (Nat.max m x)) none

/-- Rust `Session::largest_common` (src/moq-transport/src/session/mod.rs, lines
56-61): `a.iter().filter(|x| b.contains(x)).cloned().max()`, instantiated at
numeric versions. -/
def Session.largestCommon (a b : List Nat) : Option Nat :=
  iterMax (a.filter fun x => b.contains x)

/-- Modelled from the spec: the draft-14 setup version number
(`setup::Version::DRAFT_14`; the `setup` module is not in the source tree;
draft versions are `0xff000000 + draft number`). -/
def DRAFT_14 : Nat := 0xff00000e

/-- The server's supported versions in `Session::accept`:
`setup::Versions(vec![setup::Version::DRAFT_14])`. -/
def serverVersions : List Nat := [DRAFT_14]

/-- The SERVER_SETUP reply as far as version negotiation is concerned
(`setup::Server { version, params }`; the params carry only `MaxRequestId`,
orthogonal to negotiation). -/
structure ServerSetup where
  version : Nat
deriving DecidableEq, Repr

/-- The version-negotiation core of `Session::accept`
(src/moq-transport/src/session/mod.rs, lines 168-194): reply SERVER_SETUP
with `largest_common(server_versions, client.versions)` when it exists,
otherwise fail with `SessionError::Version` and send nothing. -/
def Session.acceptNegotiation (clientVersions : List Nat) :
    Except SessionError ServerSetup :=
  match Session.largestCommon serverVersions clientVersions with
  | some v => .ok ⟨v⟩
  | none => .error (.Version clientVersions serverVersions)

/-- Rust `Subscriber::get_next_request_id`
(src/moq-transport/src/session/subscriber.rs, lines 93-96):
`fetch_add(2, Relaxed)` on the shared `AtomicU64` — returns the current
value and stores it plus 2, wrapping at `2 ^ 64`. -/
def getNextRequestId (s : Nat) : Nat × Nat :=
  (s, (s + 2) % 2 ^ 64)

/-- The ids produced by `n` successive `get_next_request_id` calls starting
from counter value `s`. -/
def genRequestIds : Nat → Nat → List Nat
  | _, 0 => []
  | s, n + 1 =>
    let r := getNextRequestId s
    r.1 :: genRequestIds r.2 n

/-- Rust `Session::connect`: "We are the client, so the first request id is 0"
(`Session::new(session, sender, recver, 0, mlog)`). -/
def clientFirstRequestId : Nat := 0

/-- Rust `Session::accept`: "We are the server, so the first request id is 1"
(`Session::new(session, sender, recver, 1, mlog)`). -/
def serverFirstRequestId : Nat := 1

/-!
## Subscriber control-message handling (src/moq-transport/src/session/subscriber.rs)

The per-session maps behind mutexes are modelled as association lists. The
values of the announced map (`AnnouncedRecv`) and subscribes map
(`SubscribeRecv`) are channel handles; the control flow embedded here needs
only the announced keys, each subscription's optional `track_alias`, and the
`track_alias → request id` map, so those are what the state carries.
-/

structure SubscriberState where
  /-- Keys of `announced: HashMap<TrackNamespace, AnnouncedRecv>`. -/
  announced : List TrackNamespace
  /-- Whether `announced_queue.push` fails (queue closed). -/
  announcedQueueClosed : Bool
  /-- Rust `subscribes: HashMap<u64, SubscribeRecv>`, each entry keeping the
  subscription's `track_alias()` (populated by SUBSCRIBE_OK). -/
  subscribes : List (Nat × Option Nat)
  /-- Rust `subscribe_alias_map: HashMap<u64, u64>` (track alias → request id). -/
  subscribeAliasMap : List (Nat × Nat)
deriving DecidableEq, Repr

/-- Rust `Subscriber::recv_publish_namespace`
(src/moq-transport/src/session/subscriber.rs, lines 173-194): a namespace
already present is `SessionError::Duplicate`; a closed announced queue
cancels the announce and returns Ok without inserting; otherwise the
namespace is inserted. -/
def Subscriber.recvPublishNamespace (st : SubscriberState) (ns : TrackNamespace) :
    Except SessionError SubscriberState :=
  if st.announced.contains ns then .error .Duplicate
  else if st.announcedQueueClosed then .ok st
  else .ok { st with announced := ns :: st.announced }

/-- Rust `Subscriber::recv_publish_namespace_done`: remove and close the
announce. -/
def Subscriber.recvPublishNamespaceDone (st : SubscriberState) (ns : TrackNamespace) :
    Except SessionError SubscriberState :=
  .ok { st with announced := st.announced.filter fun x => !(x == ns) }

/-- Rust `Subscriber::recv_subscribe_ok`: when the request id is a live
subscription, record `track_alias → id` in the alias map and mark the
subscription OK with its alias. -/
def Subscriber.recvSubscribeOk (st : SubscriberState) (id trackAlias : Nat) :
    Except SessionError SubscriberState :=
  if st.subscribes.any fun p => p.1 == id then
    .ok { st with
      subscribeAliasMap := (trackAlias, id) :: st.subscribeAliasMap,
      subscribes := st.subscribes.map fun p =>
        if p.1 == id then (p.1, some trackAlias) else p }
  else .ok st

/-- Rust `Subscriber::remove_subscribe`: drop the subscription entry and, when it
had a `track_alias`, its alias-map entry. -/
def Subscriber.removeSubscribe (st : SubscriberState) (id : Nat) : SubscriberState :=
  match st.subscribes.find? fun p => p.1 == id with
  | none => st
  | some (_, trackAlias?) =>
    let st := { st with subscribes := st.subscribes.filter fun p => !(p.1 == id) }
    match trackAlias? with
    | none => st
    | some a => { st with subscribeAliasMap := st.subscribeAliasMap.filter fun p => !(p.1 == a) }

/-- Rust `Subscriber::recv_subscribe_error`: remove and fail the subscription. -/
def Subscriber.recvSubscribeError (st : SubscriberState) (id _errorCode : Nat) :
    Except SessionError SubscriberState :=
  .ok (Subscriber.removeSubscribe st id)

/-- Rust `Subscriber::recv_publish_done`: remove and fail the subscription. -/
def Subscriber.recvPublishDone (st : SubscriberState) (id _statusCode : Nat) :
    Except SessionError SubscriberState :=
  .ok (Subscriber.removeSubscribe st id)

/-- The `message::Publisher` control messages dispatched by
`Subscriber::recv_message` (payload fields beyond those the handlers read
are omitted). -/
inductive PublisherMessage where
  | publishNamespace (id : Nat) (trackNamespace : TrackNamespace)
  | publishNamespaceDone (trackNamespace : TrackNamespace)
  | publish
  | publishDone (id statusCode : Nat)
  | subscribeOk (id trackAlias : Nat)
  | subscribeError (id errorCode : Nat)
  | trackStatusOk
  | trackStatusError
  | fetchOk
  | fetchError
  | subscribeNamespaceOk
  | subscribeNamespaceError
deriving DecidableEq, Repr

/-- Rust `Subscriber::recv_message`
(src/moq-transport/src/session/subscriber.rs, lines 142-170): dispatch on
the message, then swallow `SessionError::Serve` results (log and return Ok,
keeping the session alive); every other error — `Duplicate` included —
propagates to `run_recv` and ends the session. -/
def Subscriber.recvMessage (st : SubscriberState) (msg : PublisherMessage) :
    Except SessionError SubscriberState :=
  let res : Except SessionError SubscriberState :=
    match msg with
    | .publishNamespace _id ns => Subscriber.recvPublishNamespace st ns
    | .publishNamespaceDone ns => Subscriber.recvPublishNamespaceDone st ns
    | .publish => .error (.Unimplemented "PUBLISH")
    | .publishDone id code => Subscriber.recvPublishDone st id code
    | .subscribeOk id trackAlias => Subscriber.recvSubscribeOk st id trackAlias
    | .subscribeError id code => Subscriber.recvSubscribeError st id code
    | .trackStatusOk => .ok st
    | .trackStatusError => .error (.Unimplemented "TRACK_STATUS_ERROR")
    | .fetchOk => .error (.Unimplemented "FETCH_OK")
    | .fetchError => .error (.Unimplemented "FETCH_ERROR")
    | .subscribeNamespaceOk => .error (.Unimplemented "SUBSCRIBE_NAMESPACE_OK")
    | .subscribeNamespaceError => .error (.Unimplemented "SUBSCRIBE_NAMESPACE_ERROR")
  match res with
  | .error (.Serve _) => .ok st
  | r => r

/-- The absolute object ids assigned by the loop of
`Subscriber::recv_subgroup`
(src/moq-transport/src/session/subscriber.rs, lines 449-635):
`current_object_id += object_id_delta` on a `u64` starting at 0, one value
per decoded object, in wire order (`u64` addition modelled with its
wrap-around). -/
def recvSubgroupObjectIds : List Nat → Nat → List Nat
  | [], _ => []
  | d :: ds, cur =>
    let id := (cur + d) % 2 ^ 64
    id :: recvSubgroupObjectIds ds id

/-!
## File coordinator (src/moq-relay-ietf/src/bin/moq-relay-ietf/file_coordinator.rs)

`CoordinatorData.namespaces: HashMap<String, String>` is an association list
of path-string keys (byte strings) to relay URLs, in iteration order.
File I/O and locking sit outside the shallow embedding; the lookup and
register bodies between read and write are embedded exactly.
-/

/-- Rust `CoordinatorError` (src/moq-relay-ietf/src/coordinator.rs). -/
inductive CoordinatorError where
  | NamespaceNotFound
  | NamespaceAlreadyRegistered
  | Other (cause : String)
deriving DecidableEq, Repr

/-- Relay URLs, opaque to the coordination logic. -/
abbrev Url := String

/-- Rust `CoordinatorData::namespace_key`: `namespace.to_utf8_path()`. -/
def namespaceKey (ns : TrackNamespace) : List Byte :=
  ns.toUtf8Path

/-- Rust `data.namespaces.get(&key)` on the association-list model. -/
def assocGet (m : List (List Byte × Url)) (k : List Byte) : Option Url :=
  (m.find? fun p => p.1 == k).map (·.2)

/-- Rust `HashMap::insert` on the association-list model: replace the value of an
existing key, otherwise append the binding. -/
def assocInsert (m : List (List Byte × Url)) (k : List Byte) (v : Url) :
    List (List Byte × Url) :=
  if m.any fun p => p.1 == k then
    m.map fun p => if p.1 == k then (k, v) else p
  else m ++ [(k, v)]

/-- The coordinator lookup's per-entry test:
`registered_key.split('/').zip(key.split('/')).all(|(a, b)| a == b)` — note
`zip` truncates at the shorter segment list. -/
def zipSegmentsEq (a b : List (List Byte)) : Bool :=
  (a.zip b).all fun p => p.1 == p.2

/-- The `for (registered_key, url) in &data.namespaces` loop of
`FileCoordinator::lookup`, carrying `best_match`. -/
def bestMatchLoop (key : List Byte) :
    List (List Byte × Url) → Option (List Byte × Url) → Option (List Byte × Url)
  | [], best => best
  | (rk, u) :: t, best =>
    let isP := zipSegmentsEq (splitOnSlash rk) (splitOnSlash key)
    match best with
    | some (bk, _) =>
      if isP ∧ bk.length < rk.length then bestMatchLoop key t (some (rk, u))
      else bestMatchLoop key t best
    | none =>
      if isP then bestMatchLoop key t (some (rk, u))
      else bestMatchLoop key t best

/-- Rust `FileCoordinator::lookup`
(src/moq-relay-ietf/src/bin/moq-relay-ietf/file_coordinator.rs, lines
182-246): exact key match first; otherwise the best entry of the prefix
scan, its namespace re-parsed from the matched key; otherwise
`NamespaceNotFound`. The returned pair is the namespace and URL of the
`NamespaceOrigin`. -/
def FileCoordinator.lookup (d : List (List Byte × Url)) (ns : TrackNamespace) :
    Except CoordinatorError (TrackNamespace × Url) :=
  match assocGet d (namespaceKey ns) with
  | some relayUrl => .ok (ns, relayUrl)
  | none =>
    match bestMatchLoop (namespaceKey ns) d none with
    | some (matchedKey, relayUrl) => .ok (TrackNamespace.fromUtf8Path matchedKey, relayUrl)
    | none => .error .NamespaceNotFound

/-- Rust `FileCoordinator::register_namespace`
(src/moq-relay-ietf/src/bin/moq-relay-ietf/file_coordinator.rs, lines
129-168): `data.namespaces.insert(key, relay_url)` unconditionally — no
occupancy check, no `NamespaceAlreadyRegistered` path. -/
def FileCoordinator.registerNamespace (d : List (List Byte × Url))
    (ns : TrackNamespace) (relayUrl : Url) :
    Except CoordinatorError (List (List Byte × Url)) :=
  .ok (assocInsert d (namespaceKey ns) relayUrl)

/-!
## Theorems
-/

-- `splitOnSlash` never produces an empty list of segments.
theorem splitOnSlash_ne_nil (l : List Byte) : splitOnSlash l ≠ [] := by
  induction l with
  | nil => simp [splitOnSlash]
  | cons b rest ih =>
    simp only [splitOnSlash]
    split
    · simp
    · cases h : splitOnSlash rest with
      | nil => simp
      | cons p ps => simp

-- One segment or more comes out of every split.
theorem one_le_splitOnSlash_length (l : List Byte) : 1 ≤ (splitOnSlash l).length := by
  cases h : splitOnSlash l with
  | nil => exact absurd h (splitOnSlash_ne_nil l)
  | cons p ps => simp

-- Splitting after a leading separator yields a leading empty segment.
theorem splitOnSlash_slash (l : List Byte) :
    splitOnSlash (slashByte :: l) = [] :: splitOnSlash l := by
  simp [splitOnSlash]

-- Prepending bytes never reduces the number of segments.
theorem splitOnSlash_length_append (xs ys : List Byte) :
    (splitOnSlash ys).length ≤ (splitOnSlash (xs ++ ys)).length := by
  induction xs with
  | nil => simp
  | cons b xs ih =>
    simp only [List.cons_append, splitOnSlash]
    split
    · simpa using Nat.le_succ_of_le ih
    · cases h : splitOnSlash (xs ++ ys) with
      | nil => exact absurd h (splitOnSlash_ne_nil _)
      | cons p ps =>
        rw [h] at ih
        simpa using ih

-- The path of a namespace splits into strictly more segments than the
-- namespace has fields.
theorem fields_length_lt_splitOnSlash_toUtf8Path (ns : TrackNamespace) :
    ns.fields.length < (splitOnSlash ns.toUtf8Path).length := by
  suffices h : ∀ fs : List TupleField,
      fs.length < (splitOnSlash (TrackNamespace.toUtf8Path.go fs)).length by
    exact h ns.fields
  intro fs
  induction fs with
  | nil => simpa [TrackNamespace.toUtf8Path.go] using one_le_splitOnSlash_length []
  | cons f fs ih =>
    show fs.length + 1 < _
    calc fs.length + 1
        < (splitOnSlash (TrackNamespace.toUtf8Path.go fs)).length + 1 := by omega
      _ ≤ (splitOnSlash (f.value ++ TrackNamespace.toUtf8Path.go fs)).length + 1 := by
          have := splitOnSlash_length_append f.value (TrackNamespace.toUtf8Path.go fs)
          omega
      _ = (splitOnSlash (TrackNamespace.toUtf8Path.go (f :: fs))).length := by
          simp [TrackNamespace.toUtf8Path.go, splitOnSlash_slash]

theorem beBytes_length (k n : Nat) : (beBytes k n).length = k := by
  induction k generalizing n with
  | zero => rfl
  | succ k ih => simp [beBytes, ih]

theorem readBE_beBytes (k : Nat) : ∀ a n, n < 256 ^ k →
    readBE a (beBytes k n) = a * 256 ^ k + n := by
  induction k with
  | zero =>
    intro a n h
    interval_cases n
    simp [readBE, beBytes]
  | succ k ih =>
    intro a n h
    have hmod : n % 256 ^ k < 256 ^ k := Nat.mod_lt _ (Nat.pos_pow_of_pos k (by omega))
    show readBE (a * 256 + n / 256 ^ k) (beBytes k (n % 256 ^ k)) = _
    rw [ih _ _ hmod]
    have hdm := Nat.div_add_mod n (256 ^ k)
    calc (a * 256 + n / 256 ^ k) * 256 ^ k + n % 256 ^ k
        = a * (256 ^ k * 256) + (256 ^ k * (n / 256 ^ k) + n % 256 ^ k) := by ring
      _ = a * 256 ^ (k + 1) + n := by rw [hdm, pow_succ]

/-- Varint round trip: any value below `2 ^ 62` encodes successfully and
decodes back, preserving the unconsumed tail. -/
theorem varint_roundtrip (n : Nat) (h : n < 2 ^ 62) (rest : List Byte) :
    ∃ bs, varintEncode n = .ok bs ∧ varintDecode (bs ++ rest) = .ok (n, rest) := by
  by_cases h1 : n < 2 ^ 6
  · refine ⟨[n], by unfold varintEncode; rw [if_pos h1], ?_⟩
    have hd : n / 64 = 0 := Nat.div_eq_of_lt h1
    have hm : n % 64 = n := Nat.mod_eq_of_lt h1
    simp [varintDecode, hd, hm, readBE]
  · by_cases h2 : n < 2 ^ 14
    · refine ⟨_, by unfold varintEncode; rw [if_neg h1, if_pos h2], ?_⟩
      have hq : n / 2 ^ 8 < 64 := by omega
      have hb : (64 + n / 2 ^ 8) / 64 = 1 := by omega
      have hm : (64 + n / 2 ^ 8) % 64 = n / 2 ^ 8 := by omega
      have hlen : (beBytes 1 (n % 2 ^ 8)).length = 2 ^ 1 - 1 := by
        simp [beBytes_length]
      have hnot : ¬ ((beBytes 1 (n % 2 ^ 8) ++ rest).length < 2 ^ 1 - 1) := by
        rw [List.length_append, hlen]; omega
      simp only [varintDecode, List.cons_append, hb, hm, if_neg hnot]
      rw [List.take_left' hlen, List.drop_left' hlen]
      have hread := readBE_beBytes 1 (n / 2 ^ 8) (n % 2 ^ 8) (by omega)
      rw [hread]
      have hval : n / 2 ^ 8 * 256 ^ 1 + n % 2 ^ 8 = n := by omega
      rw [hval]
    · by_cases h3 : n < 2 ^ 30
      · refine ⟨_, by unfold varintEncode; rw [if_neg h1, if_neg h2, if_pos h3], ?_⟩
        have hq : n / 2 ^ 24 < 64 := by omega
        have hb : (128 + n / 2 ^ 24) / 64 = 2 := by omega
        have hm : (128 + n / 2 ^ 24) % 64 = n / 2 ^ 24 := by omega
        have hlen : (beBytes 3 (n % 2 ^ 24)).length = 2 ^ 2 - 1 := by
          simp [beBytes_length]
        have hnot : ¬ ((beBytes 3 (n % 2 ^ 24) ++ rest).length < 2 ^ 2 - 1) := by
          rw [List.length_append, hlen]; omega
        simp only [varintDecode, List.cons_append, hb, hm, if_neg hnot]
        rw [List.take_left' hlen, List.drop_left' hlen]
        have hread := readBE_beBytes 3 (n / 2 ^ 24) (n % 2 ^ 24) (by omega)
        rw [hread]
        have hval : n / 2 ^ 24 * 256 ^ 3 + n % 2 ^ 24 = n := by omega
        rw [hval]
      · refine ⟨_, by unfold varintEncode; rw [if_neg h1, if_neg h2, if_neg h3, if_pos h], ?_⟩
        have hq : n / 2 ^ 56 < 64 := by omega
        have hb : (192 + n / 2 ^ 56) / 64 = 3 := by omega
        have hm : (192 + n / 2 ^ 56) % 64 = n / 2 ^ 56 := by omega
        have hlen : (beBytes 7 (n % 2 ^ 56)).length = 2 ^ 3 - 1 := by
          simp [beBytes_length]
        have hnot : ¬ ((beBytes 7 (n % 2 ^ 56) ++ rest).length < 2 ^ 3 - 1) := by
          rw [List.length_append, hlen]; omega
        simp only [varintDecode, List.cons_append, hb, hm, if_neg hnot]
        rw [List.take_left' hlen, List.drop_left' hlen]
        have hread := readBE_beBytes 7 (n / 2 ^ 56) (n % 2 ^ 56) (by omega)
        rw [hread]
        have hval : n / 2 ^ 56 * 256 ^ 7 + n % 2 ^ 56 = n := by omega
        rw [hval]

-- A length-prefixed field decodes back to itself, preserving the tail.
theorem tupleField_decode_encode (f : TupleField) (h : f.value.length < 2 ^ 62)
    (rest : List Byte) :
    ∃ bs, f.encode = .ok bs ∧ TupleField.decode (bs ++ rest) = .ok (f, rest) := by
  obtain ⟨lb, henc, hdec⟩ := varint_roundtrip f.value.length h (f.value ++ rest)
  refine ⟨lb ++ f.value, ?_, ?_⟩
  · simp [TupleField.encode, henc]
  · have hnot : ¬ ((f.value ++ rest).length < f.value.length) := by
      rw [List.length_append]; omega
    have htake : (f.value ++ rest).take f.value.length = f.value := List.take_left _ _
    have hdrop : (f.value ++ rest).drop f.value.length = rest := List.drop_left _ _
    simp [TupleField.decode, List.append_assoc, hdec, hnot, htake, hdrop]

-- The field-list loops of the namespace codec round-trip.
theorem fieldsLoop_decode_encode (fs : List TupleField)
    (h : ∀ f ∈ fs, f.value.length < 2 ^ 62) (rest : List Byte) :
    ∃ bs, encodeFieldsLoop fs = .ok bs ∧
      decodeFieldsLoop fs.length (bs ++ rest) = .ok (fs, rest) := by
  induction fs generalizing rest with
  | nil => exact ⟨[], rfl, by simp [decodeFieldsLoop]⟩
  | cons f fs ih =>
    obtain ⟨bsTail, hencT, hdecT⟩ :=
      ih (fun g hg => h g (List.mem_cons_of_mem _ hg)) rest
    obtain ⟨bf, hencF, hdecF⟩ :=
      tupleField_decode_encode f (h f (List.mem_cons_self _ _)) (bsTail ++ rest)
    refine ⟨bf ++ bsTail, ?_, ?_⟩
    · simp [encodeFieldsLoop, hencF, hencT]
    · show decodeFieldsLoop (fs.length + 1) ((bf ++ bsTail) ++ rest) = _
      simp [decodeFieldsLoop, List.append_assoc, hdecF, hdecT]

/-- C5: for every TrackNamespace within the data-model bounds (at most 32
fields of at most 4096 bytes each), `TrackNamespace::encode` succeeds and
`TrackNamespace::decode` on the produced bytes returns an equal value
(consuming the whole buffer). -/
theorem trackNamespace_encode_decode_roundtrip (ns : TrackNamespace)
    (hcount : ns.fields.length ≤ TrackNamespace.MAX_FIELDS)
    (hsize : ∀ f ∈ ns.fields, f.value.length ≤ TupleField.MAX_VALUE_SIZE) :
    ∃ bs, ns.encode = .ok bs ∧ TrackNamespace.decode bs = .ok (ns, []) := by
  have h62 : ∀ f ∈ ns.fields, f.value.length < 2 ^ 62 := fun f hf =>
    lt_of_le_of_lt (hsize f hf) (by norm_num [TupleField.MAX_VALUE_SIZE])
  obtain ⟨body, hencB, hdecB⟩ := fieldsLoop_decode_encode ns.fields h62 []
  have hcount62 : ns.fields.length < 2 ^ 62 := by
    simp [TrackNamespace.MAX_FIELDS] at hcount; omega
  obtain ⟨cb, hencC, hdecC⟩ := varint_roundtrip ns.fields.length hcount62 body
  have hnotBig : ¬ (ns.fields.length > TrackNamespace.MAX_FIELDS) := by omega
  refine ⟨cb ++ body, ?_, ?_⟩
  · simp [TrackNamespace.encode, hnotBig, hencC, hencB]
  · rw [List.append_nil] at hdecB
    simp [TrackNamespace.decode, hdecC, hnotBig, hdecB]

/-- Witness for C5 at the single-field namespace `t`. -/
theorem trackNamespace_encode_decode_roundtrip_witness :
    (⟨[⟨[116]⟩]⟩ : TrackNamespace).fields.length ≤ TrackNamespace.MAX_FIELDS ∧
    (∀ f ∈ (⟨[⟨[116]⟩]⟩ : TrackNamespace).fields,
      f.value.length ≤ TupleField.MAX_VALUE_SIZE) ∧
    ∃ bs, (⟨[⟨[116]⟩]⟩ : TrackNamespace).encode = .ok bs ∧
      TrackNamespace.decode bs = .ok (⟨[⟨[116]⟩]⟩, []) :=
  ⟨by decide, by decide,
    trackNamespace_encode_decode_roundtrip ⟨[⟨[116]⟩]⟩ (by decide) (by decide)⟩

/-- C9: for every TrackNamespace with at least one field, the round trip
through the path string is not the identity — `to_utf8_path` prepends `/`
before every field, and `from_utf8_path` keeps empty segments, so the result
gains a leading empty field. -/
theorem fromUtf8Path_toUtf8Path_not_id (ns : TrackNamespace) (h : ns.fields ≠ []) :
    TrackNamespace.fromUtf8Path ns.toUtf8Path ≠ ns ∧
    ∃ rest, (TrackNamespace.fromUtf8Path ns.toUtf8Path).fields =
      TupleField.fromUtf8 [] :: rest := by
  constructor
  · intro heq
    have hlen := fields_length_lt_splitOnSlash_toUtf8Path ns
    have : (TrackNamespace.fromUtf8Path ns.toUtf8Path).fields.length =
        (splitOnSlash ns.toUtf8Path).length := by
      simp [TrackNamespace.fromUtf8Path]
    rw [heq] at this
    omega
  · obtain ⟨f, fs, hfs⟩ := List.exists_cons_of_ne_nil h
    have hpath : ns.toUtf8Path = (slashByte :: f.value) ++ TrackNamespace.toUtf8Path.go fs := by
      show TrackNamespace.toUtf8Path.go ns.fields = _
      rw [hfs]
      rfl
    refine ⟨((splitOnSlash (f.value ++ TrackNamespace.toUtf8Path.go fs)).map
      TupleField.fromUtf8), ?_⟩
    simp [TrackNamespace.fromUtf8Path, hpath, splitOnSlash_slash]

/-- Witness for C9 at the one-field namespace `a`: the round trip differs
and starts with an empty field. -/
theorem fromUtf8Path_toUtf8Path_not_id_witness :
    (⟨[⟨[97]⟩]⟩ : TrackNamespace).fields ≠ [] ∧
    TrackNamespace.fromUtf8Path (⟨[⟨[97]⟩]⟩ : TrackNamespace).toUtf8Path ≠ ⟨[⟨[97]⟩]⟩ ∧
    ∃ rest, (TrackNamespace.fromUtf8Path
      (⟨[⟨[97]⟩]⟩ : TrackNamespace).toUtf8Path).fields = TupleField.fromUtf8 [] :: rest :=
  ⟨by decide, fromUtf8Path_toUtf8Path_not_id ⟨[⟨[97]⟩]⟩ (by decide)⟩

-- Bridge between the spec-side prefix relation and the code's
-- length-guard-plus-zip test.
theorem leadsList_iff_zip {β : Type} [DecidableEq β] (a b : List β) :
    leadsList a b ↔ (a.length ≤ b.length ∧ ((a.zip b).all fun p => p.1 == p.2) = true) := by
  induction a generalizing b with
  | nil => simp [leadsList]
  | cons x a ih =>
    cases b with
    | nil =>
      simp only [leadsList, List.take_nil]
      constructor
      · intro hcontra; exact absurd hcontra (by simp)
      · intro hcontra; simp at hcontra
    | cons y b =>
      simp only [leadsList, List.length_cons, List.take_succ_cons, List.cons.injEq,
        List.zip_cons_cons, List.all_cons, beq_iff_eq, Bool.and_eq_true]
      rw [show (b.take a.length = a) = leadsList a b from rfl, ih]
      constructor
      · rintro ⟨rfl, h1, h2⟩; exact ⟨by omega, rfl, h2⟩
      · rintro ⟨hlen, rfl, h2⟩; exact ⟨rfl, by omega, h2⟩

-- Two element-wise prefixes of the same list with equal length are equal.
theorem leadsList_eq_of_length {β : Type} (a a' b : List β)
    (h : leadsList a b) (h' : leadsList a' b) (hlen : a.length = a'.length) : a = a' := by
  unfold leadsList at h h'
  rw [← h, ← h', hlen]

-- In a map with no duplicate keys, a key determines its value.
theorem nodup_keys_mem_eq {κ ν : Type} (l : List (κ × ν))
    (hnd : (l.map Prod.fst).Nodup) {a : κ} {b c : ν}
    (hb : (a, b) ∈ l) (hc : (a, c) ∈ l) : b = c := by
  induction l with
  | nil => cases hb
  | cons hd t ih =>
    rw [List.map_cons, List.nodup_cons] at hnd
    rcases List.mem_cons.mp hb with rfl | hb' <;>
      rcases List.mem_cons.mp hc with hc' | hc'
    · cases hc'; rfl
    · exact absurd (List.mem_map_of_mem Prod.fst hc') (by simpa using hnd.1)
    · cases hc'
      exact absurd (List.mem_map_of_mem Prod.fst hb') (by simpa using hnd.1)
    · exact ih hnd.2 hb' hc'

-- The retrieve scan leaves its accumulator alone when no remaining entry
-- both matches and improves on `bestLen`.
theorem retrieveLoop_no_better {α : Type} (ns : TrackNamespace)
    (l : List (TrackNamespace × α)) (best : Option α) (bestLen : Nat)
    (h : ∀ p ∈ l, leadsList p.1.fields ns.fields → p.1.fields.length ≤ bestLen) :
    retrieveLoop ns l best bestLen = best := by
  induction l generalizing best bestLen with
  | nil => rfl
  | cons hd t ih =>
    obtain ⟨q, s⟩ := hd
    have ht : ∀ p ∈ t, leadsList p.1.fields ns.fields → p.1.fields.length ≤ bestLen :=
      fun p hp => h p (List.mem_cons_of_mem _ hp)
    simp only [retrieveLoop]
    by_cases hql : q.fields.length ≤ ns.fields.length
    · rw [if_pos hql]
      have hniceCond : ¬ (isPrefixOfFields q.fields ns.fields = true ∧
          bestLen < q.fields.length) := by
        rintro ⟨hp, hlt⟩
        have hlead : leadsList q.fields ns.fields :=
          (leadsList_iff_zip _ _).mpr ⟨hql, hp⟩
        have hle : q.fields.length ≤ bestLen := h (q, s) (List.mem_cons_self _ _) hlead
        omega
      rw [if_neg hniceCond]
      exact ih best bestLen ht
    · rw [if_neg hql]
      exact ih best bestLen ht

-- The retrieve scan returns the value of an entry that matches, improves on
-- `bestLen`, and has maximal length among matching entries (the entry of
-- maximal length being unique).
theorem retrieveLoop_finds_max {α : Type} (ns : TrackNamespace)
    (l : List (TrackNamespace × α)) (best : Option α) (bestLen : Nat)
    (reg : TrackNamespace) (r : α)
    (hmem : (reg, r) ∈ l)
    (hlead : leadsList reg.fields ns.fields)
    (himpr : bestLen < reg.fields.length)
    (hmax : ∀ p ∈ l, leadsList p.1.fields ns.fields →
      p.1.fields.length ≤ reg.fields.length)
    (huniq : ∀ p ∈ l, leadsList p.1.fields ns.fields →
      p.1.fields.length = reg.fields.length → p = (reg, r)) :
    retrieveLoop ns l best bestLen = some r := by
  induction l generalizing best bestLen with
  | nil => cases hmem
  | cons hd t ih =>
    obtain ⟨q, s⟩ := hd
    have hzip := leadsList_iff_zip reg.fields ns.fields
    simp only [retrieveLoop]
    by_cases hcase : leadsList q.fields ns.fields ∧ bestLen < q.fields.length
    · obtain ⟨hqlead, hqimpr⟩ := hcase
      have hql : q.fields.length ≤ ns.fields.length :=
        ((leadsList_iff_zip _ _).mp hqlead).1
      have hqp : isPrefixOfFields q.fields ns.fields = true :=
        ((leadsList_iff_zip _ _).mp hqlead).2
      rw [if_pos hql, if_pos ⟨hqp, hqimpr⟩]
      have hqle : q.fields.length ≤ reg.fields.length :=
        hmax (q, s) (List.mem_cons_self _ _) hqlead
      rcases Nat.lt_or_ge q.fields.length reg.fields.length with hqlt | hqge
      · -- q is shorter than the maximum: the maximum entry sits in the tail.
        have hmemT : (reg, r) ∈ t := by
          rcases List.mem_cons.mp hmem with heq | h'
          · cases heq; omega
          · exact h'
        exact ih (some s) q.fields.length hmemT hqlt
          (fun p hp => hmax p (List.mem_cons_of_mem _ hp))
          (fun p hp => huniq p (List.mem_cons_of_mem _ hp))
      · -- q attains the maximum: q is the unique maximal entry.
        have hqeq : (q, s) = (reg, r) :=
          huniq (q, s) (List.mem_cons_self _ _) hqlead
            ((by omega : q.fields.length = reg.fields.length))
        obtain ⟨hq, hs⟩ := Prod.mk.injEq .. ▸ hqeq
        subst hq; subst hs
        exact retrieveLoop_no_better ns t (some s) q.fields.length
          (fun p hp hplead => hmax p (List.mem_cons_of_mem _ hp) hplead)
    · -- q does not match or does not improve: the accumulator passes through.
      have hmemT : (reg, r) ∈ t := by
        rcases List.mem_cons.mp hmem with heq | h'
        · cases heq; exact absurd ⟨hlead, himpr⟩ hcase
        · exact h'
      have hrec : retrieveLoop ns t best bestLen = some r :=
        ih best bestLen hmemT himpr
          (fun p hp => hmax p (List.mem_cons_of_mem _ hp))
          (fun p hp => huniq p (List.mem_cons_of_mem _ hp))
      by_cases hql : q.fields.length ≤ ns.fields.length
      · rw [if_pos hql]
        have hnc : ¬ (isPrefixOfFields q.fields ns.fields = true ∧
            bestLen < q.fields.length) := by
          rintro ⟨hp, hlt⟩
          exact hcase ⟨(leadsList_iff_zip _ _).mpr ⟨hql, hp⟩, hlt⟩
        rw [if_neg hnc]
        exact hrec
      · rw [if_neg hql]
        exact hrec

/-- C1 (amended): with unique registrations, `Locals::retrieve` returns the
reader of the entry whose namespace is the longest NON-EMPTY element-wise
prefix of the request, and `None` when no non-empty registered namespace is
such a prefix — a registered empty namespace is never returned because the
scan starts from `best_len = 0` and only strict improvements are kept. -/
theorem locals_retrieve_longest_nonempty_match {α : Type}
    (l : List (TrackNamespace × α)) (ns : TrackNamespace) :
    ((∀ p ∈ l, p.1.fields ≠ [] → ¬ leadsList p.1.fields ns.fields) →
      Locals.retrieve l ns = none) ∧
    (∀ reg r, (l.map Prod.fst).Nodup → (reg, r) ∈ l → reg.fields ≠ [] →
      leadsList reg.fields ns.fields →
      (∀ p ∈ l, leadsList p.1.fields ns.fields →
        p.1.fields.length ≤ reg.fields.length) →
      Locals.retrieve l ns = some r) := by
  constructor
  · intro h
    apply retrieveLoop_no_better
    intro p hp hplead
    by_cases hne : p.1.fields = []
    · simp [hne]
    · exact absurd hplead (h p hp hne)
  · intro reg r hnodup hmem hne hlead hmax
    apply retrieveLoop_finds_max ns l none 0 reg r hmem hlead
      (by cases hreg : reg.fields with
        | nil => exact absurd hreg hne
        | cons f fs => simp [hreg]) hmax
    intro p hp hplead hplen
    have hfields : p.1.fields = reg.fields :=
      leadsList_eq_of_length _ _ _ hplead hlead hplen
    have hkey : p.1 = reg := by
      cases hq : p.1
      cases reg
      rw [hq] at hfields
      simpa using hfields
    have hp2 : (reg, p.2) ∈ l := by
      rw [← hkey]
      simpa using hp
    have hval : p.2 = r := nodup_keys_mem_eq l hnodup hp2 hmem
    calc p = (p.1, p.2) := rfl
      _ = (reg, r) := by rw [hkey, hval]

/-- Witness for C1: with `/a` and `/a/b` registered, retrieving `/a/b/c`
returns the reader registered under the longer prefix `/a/b`. -/
theorem locals_retrieve_longest_nonempty_match_witness :
    Locals.retrieve
      [((⟨[⟨[97]⟩]⟩ : TrackNamespace), (1 : Nat)), (⟨[⟨[97]⟩, ⟨[98]⟩]⟩, 2)]
      ⟨[⟨[97]⟩, ⟨[98]⟩, ⟨[99]⟩]⟩ = some 2 :=
  (locals_retrieve_longest_nonempty_match
      [((⟨[⟨[97]⟩]⟩ : TrackNamespace), (1 : Nat)), (⟨[⟨[97]⟩, ⟨[98]⟩]⟩, 2)]
      ⟨[⟨[97]⟩, ⟨[98]⟩, ⟨[99]⟩]⟩).2
    ⟨[⟨[97]⟩, ⟨[98]⟩]⟩ 2 (by decide) (by decide) (by decide) (by decide) (by decide)

/-- Counterexample to C1 as stated: the empty namespace is an element-wise
prefix of every request (here: of itself), yet after registering it,
`retrieve` returns `None` instead of its reader. -/
theorem locals_retrieve_empty_namespace_counterexample :
    leadsList (⟨[]⟩ : TrackNamespace).fields (⟨[]⟩ : TrackNamespace).fields ∧
    Locals.retrieve [((⟨[]⟩ : TrackNamespace), (0 : Nat))] ⟨[]⟩ = none := by
  decide

/-- C8: `Locals::register` fails with `Duplicate` on an already-registered
namespace (leaving the map to the caller unchanged), succeeds by inserting
otherwise, and after `Registration::drop` removes the entry, `retrieve` of
that namespace returns `None` absent another matching registration. -/
theorem locals_register_duplicate_insert_drop {α : Type} :
    (∀ (l : List (TrackNamespace × α)) (t : TrackNamespace × α),
      t.1 ∈ l.map Prod.fst → Locals.register l t = .error .Duplicate) ∧
    (∀ (l : List (TrackNamespace × α)) (t : TrackNamespace × α),
      t.1 ∉ l.map Prod.fst → Locals.register l t = .ok (t :: l)) ∧
    (∀ (l : List (TrackNamespace × α)) (ns : TrackNamespace),
      (∀ p ∈ l, p.1 ≠ ns → p.1.fields ≠ [] → ¬ leadsList p.1.fields ns.fields) →
      Locals.retrieve (Registration.drop l ns) ns = none) := by
  refine ⟨?_, ?_, ?_⟩
  · intro l t ht
    have : l.any (fun p => p.1 == t.1) = true := by
      rw [List.any_eq_true]
      obtain ⟨p, hp, hpt⟩ := List.mem_map.mp ht
      exact ⟨p, hp, by simp [hpt]⟩
    simp [Locals.register, this]
  · intro l t ht
    have : l.any (fun p => p.1 == t.1) = false := by
      rw [List.any_eq_false]
      intro p hp
      simp only [beq_iff_eq]
      intro hpt
      exact ht (List.mem_map.mpr ⟨p, hp, hpt⟩)
    simp [Locals.register, this]
  · intro l ns h
    apply retrieveLoop_no_better
    intro p hp hplead
    have hpl : p ∈ l ∧ p.1 ≠ ns := by
      have := List.mem_filter.mp hp
      refine ⟨this.1, ?_⟩
      simpa using this.2
    by_cases hne : p.1.fields = []
    · simp [hne]
    · exact absurd hplead (h p hpl.1 hpl.2 hne)

/-- Witness for C8 at the namespace `/a`: duplicate registration fails,
fresh registration succeeds, and retrieval after drop returns `None`. -/
theorem locals_register_duplicate_insert_drop_witness :
    Locals.register [((⟨[⟨[97]⟩]⟩ : TrackNamespace), (1 : Nat))] (⟨[⟨[97]⟩]⟩, 2) =
      .error .Duplicate ∧
    Locals.register ([] : List (TrackNamespace × Nat)) (⟨[⟨[97]⟩]⟩, 1) =
      .ok [(⟨[⟨[97]⟩]⟩, 1)] ∧
    Locals.retrieve
      (Registration.drop [((⟨[⟨[97]⟩]⟩ : TrackNamespace), (1 : Nat))] ⟨[⟨[97]⟩]⟩)
      ⟨[⟨[97]⟩]⟩ = none :=
  ⟨(locals_register_duplicate_insert_drop (α := Nat)).1 _ _ (by decide),
    (locals_register_duplicate_insert_drop (α := Nat)).2.1 _ _ (by decide),
    (locals_register_duplicate_insert_drop (α := Nat)).2.2 _ _ (by decide)⟩

-- The max-fold with a seeded accumulator computes a plain foldl of max.
theorem iterMax_go (l : List Nat) : ∀ m : Nat,
    l.foldl (fun acc x =>
      match acc with
      | none => some x
      | some m => some (Nat.max m x)) (some m) = some (l.foldl Nat.max m) := by
  induction l with
  | nil => intro m; rfl
  | cons x t ih => intro m; exact ih (Nat.max m x)

-- The seed is a lower bound of the max fold, as is every list element.
theorem foldl_max_bounds (l : List Nat) : ∀ m : Nat,
    m ≤ l.foldl Nat.max m ∧ ∀ w ∈ l, w ≤ l.foldl Nat.max m := by
  induction l with
  | nil => intro m; exact ⟨le_refl m, by simp⟩
  | cons x t ih =>
    intro m
    obtain ⟨h1, h2⟩ := ih (Nat.max m x)
    refine ⟨le_trans (Nat.le_max_left m x) h1, ?_⟩
    intro w hw
    rcases List.mem_cons.mp hw with rfl | hw'
    · exact le_trans (Nat.le_max_right m w) h1
    · exact h2 w hw'

-- The max fold yields the seed or a list element.
theorem foldl_max_mem (l : List Nat) : ∀ m : Nat,
    l.foldl Nat.max m = m ∨ l.foldl Nat.max m ∈ l := by
  induction l with
  | nil => intro m; exact Or.inl rfl
  | cons x t ih =>
    intro m
    have hstep : List.foldl Nat.max m (x :: t) = t.foldl Nat.max (Nat.max m x) := rfl
    rcases ih (Nat.max m x) with h | h
    · rcases Nat.le_total x m with hxm | hmx
      · left
        rw [hstep, h]
        exact Nat.max_eq_left hxm
      · right
        rw [hstep, h]
        have : Nat.max m x = x := Nat.max_eq_right hmx
        rw [this]
        exact List.mem_cons_self _ _
    · right
      rw [hstep]
      exact List.mem_cons_of_mem _ h

-- `largest_common` returns a common element that bounds every common
-- element, and `none` exactly when there is no common element.
theorem largestCommon_spec (a b : List Nat) :
    (∀ v, Session.largestCommon a b = some v →
      v ∈ a ∧ v ∈ b ∧ ∀ w, w ∈ a → w ∈ b → w ≤ v) ∧
    (Session.largestCommon a b = none ↔ ∀ w ∈ a, w ∉ b) := by
  constructor
  · intro v hv
    unfold Session.largestCommon iterMax at hv
    cases hfilter : a.filter (fun x => b.contains x) with
    | nil => rw [hfilter] at hv; cases hv
    | cons x t =>
      rw [hfilter] at hv
      rw [show List.foldl _ none (x :: t) = t.foldl (fun acc x =>
        match acc with
        | none => some x
        | some m => some (Nat.max m x)) (some x) from rfl, iterMax_go] at hv
      obtain ⟨rfl⟩ : t.foldl Nat.max x = v := by injection hv
      have hmem : t.foldl Nat.max x ∈ x :: t := by
        rcases foldl_max_mem t x with h | h
        · rw [h]; exact List.mem_cons_self _ _
        · exact List.mem_cons_of_mem _ h
      rw [← hfilter] at hmem
      have hmemA : t.foldl Nat.max x ∈ a := (List.mem_filter.mp hmem).1
      have hmemB : t.foldl Nat.max x ∈ b := by
        have := (List.mem_filter.mp hmem).2
        simpa [List.contains, List.elem_iff] using this
      refine ⟨hmemA, hmemB, ?_⟩
      intro w hwa hwb
      have hwf : w ∈ a.filter (fun x => b.contains x) := by
        rw [List.mem_filter]
        exact ⟨hwa, by simpa [List.contains, List.elem_iff] using hwb⟩
      rw [hfilter] at hwf
      rcases List.mem_cons.mp hwf with rfl | hwt
      · exact (foldl_max_bounds t w).1
      · exact (foldl_max_bounds t x).2 w hwt
  · unfold Session.largestCommon iterMax
    constructor
    · intro hnone w hwa hwb
      have hwf : w ∈ a.filter (fun x => b.contains x) := by
        rw [List.mem_filter]
        exact ⟨hwa, by simpa [List.contains, List.elem_iff] using hwb⟩
      cases hfilter : a.filter (fun x => b.contains x) with
      | nil => rw [hfilter] at hwf; cases hwf
      | cons x t =>
        rw [hfilter] at hnone
        rw [show List.foldl _ none (x :: t) = t.foldl (fun acc x =>
          match acc with
          | none => some x
          | some m => some (Nat.max m x)) (some x) from rfl, iterMax_go] at hnone
        cases hnone
    · intro hno
      have hfilter : a.filter (fun x => b.contains x) = [] := by
        rw [List.filter_eq_nil_iff]
        intro x hx
        simp only [List.contains, Bool.not_eq_true]
        rw [← Bool.not_eq_true, List.elem_iff]
        exact hno x hx
      rw [hfilter]
      rfl

/-- C2: when the client's versions and the server's supported versions share
at least one version, `Session::accept` replies SERVER_SETUP carrying the
numerically largest common version; when they share none, it fails with a
`Version` error and produces no SERVER_SETUP. -/
theorem session_accept_version_negotiation (clientVersions : List Nat) :
    ((∃ v, v ∈ serverVersions ∧ v ∈ clientVersions) →
      ∃ s, Session.acceptNegotiation clientVersions = .ok s ∧
        s.version ∈ serverVersions ∧ s.version ∈ clientVersions ∧
        ∀ w, w ∈ serverVersions → w ∈ clientVersions → w ≤ s.version) ∧
    ((∀ v ∈ serverVersions, v ∉ clientVersions) →
      Session.acceptNegotiation clientVersions =
        .error (.Version clientVersions serverVersions)) := by
  constructor
  · rintro ⟨v, hvs, hvc⟩
    cases hlc : Session.largestCommon serverVersions clientVersions with
    | none =>
      exact absurd hvc
        (((largestCommon_spec serverVersions clientVersions).2.mp hlc) v hvs)
    | some u =>
      obtain ⟨hua, hub, humax⟩ :=
        (largestCommon_spec serverVersions clientVersions).1 u hlc
      refine ⟨⟨u⟩, ?_, hua, hub, humax⟩
      unfold Session.acceptNegotiation
      rw [hlc]
  · intro hno
    have hlc : Session.largestCommon serverVersions clientVersions = none :=
      (largestCommon_spec serverVersions clientVersions).2.mpr hno
    unfold Session.acceptNegotiation
    rw [hlc]

/-- Witness for C2: a client offering draft-13 and draft-14 negotiates the
common version draft-14; a client offering only draft-13 gets a `Version`
error. -/
theorem session_accept_version_negotiation_witness :
    (∃ v, v ∈ serverVersions ∧ v ∈ [4278190093, DRAFT_14]) ∧
    (∃ s, Session.acceptNegotiation [4278190093, DRAFT_14] = .ok s ∧
      s.version ∈ serverVersions ∧ s.version ∈ [4278190093, DRAFT_14] ∧
      ∀ w, w ∈ serverVersions → w ∈ [4278190093, DRAFT_14] → w ≤ s.version) ∧
    (∀ v ∈ serverVersions, v ∉ [(4278190093 : Nat)]) ∧
    Session.acceptNegotiation [4278190093] =
      .error (.Version [4278190093] serverVersions) :=
  ⟨⟨DRAFT_14, by decide, by decide⟩,
    (session_accept_version_negotiation [4278190093, DRAFT_14]).1
      ⟨DRAFT_14, by decide, by decide⟩,
    by decide,
    (session_accept_version_negotiation [4278190093]).2 (by decide)⟩

/-- C4 (amended): a PublishNamespace whose namespace is already in the
announce map is rejected with `SessionError::Duplicate`; `recv_message`
swallows only `Serve` errors, so the `Duplicate` error propagates out of
`recv_message` to `run_recv`, whose failure ends the session. -/
theorem subscriber_duplicate_publish_namespace_propagates (st : SubscriberState)
    (id : Nat) (ns : TrackNamespace) (h : ns ∈ st.announced) :
    Subscriber.recvMessage st (.publishNamespace id ns) = .error .Duplicate := by
  have hc : st.announced.contains ns = true := by
    rw [List.contains_eq_any_beq, List.any_eq_true]
    exact ⟨ns, h, by simp⟩
  simp [Subscriber.recvMessage, Subscriber.recvPublishNamespace, hc, h]

/-- Witness for C4's amended claim at an announce map already holding `/a`. -/
theorem subscriber_duplicate_publish_namespace_propagates_witness :
    (⟨[⟨[97]⟩]⟩ : TrackNamespace) ∈
      (⟨[⟨[⟨[97]⟩]⟩], false, [], []⟩ : SubscriberState).announced ∧
    Subscriber.recvMessage ⟨[⟨[⟨[97]⟩]⟩], false, [], []⟩
      (.publishNamespace 7 ⟨[⟨[97]⟩]⟩) = .error .Duplicate :=
  ⟨by decide,
    subscriber_duplicate_publish_namespace_propagates
      ⟨[⟨[⟨[97]⟩]⟩], false, [], []⟩ 7 ⟨[⟨[97]⟩]⟩ (by decide)⟩

/-- Counterexample to C4 as stated: on a duplicate PublishNamespace for the
already-announced `/a`, `recv_message` returns `SessionError::Duplicate` —
an error that is not of the swallowed `Serve` kind — rather than `Ok`, so
the duplicate is NOT confined to an error reply with the session kept open:
the error reaches `run_recv` and closes the session. -/
theorem subscriber_duplicate_publish_namespace_counterexample :
    Subscriber.recvMessage ⟨[⟨[⟨[97]⟩]⟩], false, [], []⟩
      (.publishNamespace 7 ⟨[⟨[97]⟩]⟩) = .error .Duplicate ∧
    (SessionError.Duplicate matches .Serve _) = False := by
  constructor
  · rfl
  · simp

-- Characterization of the ids generated from any starting counter that
-- stays below the u64 wrap across the run.
theorem genRequestIds_get (n : Nat) : ∀ first i, first + 2 * n ≤ 2 ^ 64 →
    (genRequestIds first n).get? i = if i < n then some (first + 2 * i) else none := by
  induction n with
  | zero => intro first i _; simp [genRequestIds]
  | succ n ih =>
    intro first i h
    show (first :: genRequestIds ((first + 2) % 2 ^ 64) n).get? i = _
    cases i with
    | zero => simp
    | succ i =>
      simp only [List.get?_cons_succ]
      cases n with
      | zero => simp [genRequestIds]
      | succ m =>
        have hstep : (first + 2) % 2 ^ 64 = first + 2 := Nat.mod_eq_of_lt (by omega)
        rw [hstep, ih (first + 2) i (by omega)]
        by_cases hi : i < m + 1
        · rw [if_pos hi, if_pos (by omega)]
          congr 1
          omega
        · rw [if_neg hi, if_neg (by omega)]

/-- C6: client-side request ids are the even numbers from 0, server-side ids
are the odd numbers from 1, and each successive generated id is exactly 2
more than the previous one (so ids increase monotonically) — as long as the
session stays below the `u64` wrap of the shared atomic counter. -/
theorem request_id_parity_and_step (n i : Nat) (h : 2 * n + 1 ≤ 2 ^ 64) :
    ((genRequestIds clientFirstRequestId n).get? i =
      if i < n then some (2 * i) else none) ∧
    ((genRequestIds serverFirstRequestId n).get? i =
      if i < n then some (2 * i + 1) else none) ∧
    (∀ x ∈ genRequestIds clientFirstRequestId n, x % 2 = 0) ∧
    (∀ x ∈ genRequestIds serverFirstRequestId n, x % 2 = 1) ∧
    (i + 1 < n →
      ∃ a b, (genRequestIds clientFirstRequestId n).get? i = some a ∧
        (genRequestIds clientFirstRequestId n).get? (i + 1) = some b ∧
        b = a + 2 ∧
        ∃ c d, (genRequestIds serverFirstRequestId n).get? i = some c ∧
          (genRequestIds serverFirstRequestId n).get? (i + 1) = some d ∧
          d = c + 2) := by
  have hcl : ∀ j, (genRequestIds clientFirstRequestId n).get? j =
      if j < n then some (2 * j) else none := by
    intro j
    have := genRequestIds_get n clientFirstRequestId j (by simp [clientFirstRequestId]; omega)
    simpa [clientFirstRequestId] using this
  have hsv : ∀ j, (genRequestIds serverFirstRequestId n).get? j =
      if j < n then some (2 * j + 1) else none := by
    intro j
    have := genRequestIds_get n serverFirstRequestId j (by simp [serverFirstRequestId]; omega)
    simpa [serverFirstRequestId, Nat.add_comm 1 (2 * j)] using this
  refine ⟨hcl i, hsv i, ?_, ?_, ?_⟩
  · intro x hx
    obtain ⟨j, hj⟩ := List.mem_iff_get?.mp hx
    rw [hcl j] at hj
    by_cases hjn : j < n
    · rw [if_pos hjn] at hj
      obtain rfl : 2 * j = x := by injection hj
      omega
    · rw [if_neg hjn] at hj
      cases hj
  · intro x hx
    obtain ⟨j, hj⟩ := List.mem_iff_get?.mp hx
    rw [hsv j] at hj
    by_cases hjn : j < n
    · rw [if_pos hjn] at hj
      obtain rfl : 2 * j + 1 = x := by injection hj
      omega
    · rw [if_neg hjn] at hj
      cases hj
  · intro hstep
    refine ⟨2 * i, 2 * (i + 1), ?_, ?_, by omega,
      2 * i + 1, 2 * (i + 1) + 1, ?_, ?_, by omega⟩
    · rw [hcl i, if_pos (by omega)]
    · rw [hcl (i + 1), if_pos (by omega)]
    · rw [hsv i, if_pos (by omega)]
    · rw [hsv (i + 1), if_pos (by omega)]

/-- Witness for C6 at a session generating three ids. -/
theorem request_id_parity_and_step_witness :
    2 * 3 + 1 ≤ 2 ^ 64 ∧
    (genRequestIds clientFirstRequestId 3).get? 1 = some 2 ∧
    (genRequestIds serverFirstRequestId 3).get? 1 = some 3 :=
  ⟨by norm_num,
    by rw [(request_id_parity_and_step 3 1 (by norm_num)).1]; rfl,
    by rw [(request_id_parity_and_step 3 1 (by norm_num)).2.1]; rfl⟩

-- Each assigned id is the running total of the deltas consumed so far, as
-- long as the total stays below the u64 wrap.
theorem recvSubgroupObjectIds_get (ds : List Nat) : ∀ cur k,
    cur + ds.sum < 2 ^ 64 → k < ds.length →
    (recvSubgroupObjectIds ds cur).get? k = some (cur + (ds.take (k + 1)).sum) := by
  induction ds with
  | nil => intro cur k _ hk; cases hk
  | cons d t ih =>
    intro cur k h hk
    have hsum : d + t.sum ≤ (d :: t).sum := by simp
    have hwrap : (cur + d) % 2 ^ 64 = cur + d := by
      apply Nat.mod_eq_of_lt
      simp [List.sum_cons] at h
      omega
    show ((cur + d) % 2 ^ 64 :: recvSubgroupObjectIds t ((cur + d) % 2 ^ 64)).get? k = _
    rw [hwrap]
    cases k with
    | zero => simp
    | succ k =>
      simp only [List.get?_cons_succ]
      rw [ih (cur + d) k (by simp [List.sum_cons] at h; omega) (by simpa using hk)]
      congr 1
      simp [List.sum_cons]
      omega

/-- C7: within one subgroup stream whose deltas total below the `u64` wrap,
the k-th decoded object's absolute object id equals the cumulative sum of
the first k deltas starting from 0, and the assigned ids are
non-decreasing. -/
theorem recvSubgroup_object_id_cumsum (ds : List Nat) (h : ds.sum < 2 ^ 64) :
    (∀ k, k < ds.length →
      (recvSubgroupObjectIds ds 0).get? k = some ((ds.take (k + 1)).sum)) ∧
    (∀ k, k + 1 < ds.length →
      ∃ a b, (recvSubgroupObjectIds ds 0).get? k = some a ∧
        (recvSubgroupObjectIds ds 0).get? (k + 1) = some b ∧ a ≤ b) := by
  have hchar : ∀ k, k < ds.length →
      (recvSubgroupObjectIds ds 0).get? k = some ((ds.take (k + 1)).sum) := by
    intro k hk
    have := recvSubgroupObjectIds_get ds 0 k (by omega) hk
    simpa using this
  refine ⟨hchar, ?_⟩
  intro k hk
  refine ⟨(ds.take (k + 1)).sum, (ds.take (k + 2)).sum,
    hchar k (by omega), hchar (k + 1) (by omega), ?_⟩
  rw [List.take_succ (n := k + 1)]
  simp

/-- Witness for C7 at the delta sequence `[5, 0, 3]`: ids `5, 5, 8`. -/
theorem recvSubgroup_object_id_cumsum_witness :
    ([5, 0, 3] : List Nat).sum < 2 ^ 64 ∧
    (recvSubgroupObjectIds [5, 0, 3] 0).get? 2 = some 8 ∧
    (∃ a b, (recvSubgroupObjectIds [5, 0, 3] 0).get? 1 = some a ∧
      (recvSubgroupObjectIds [5, 0, 3] 0).get? 2 = some b ∧ a ≤ b) :=
  ⟨by norm_num,
    by rw [(recvSubgroup_object_id_cumsum [5, 0, 3] (by norm_num)).1 2 (by norm_num)]; rfl,
    (recvSubgroup_object_id_cumsum [5, 0, 3] (by norm_num)).2 1 (by norm_num)⟩

-- Full characterization of the coordinator's best-match scan, generalized
-- over the accumulator: a `none` result means an empty accumulator and no
-- matching entry; a `some` result is a matching entry (or the accumulator)
-- whose key length bounds every matching entry and the accumulator.
theorem bestMatchLoop_spec (key : List Byte) (l : List (List Byte × Url)) :
    ∀ acc : Option (List Byte × Url),
    (∀ b, acc = some b → zipSegmentsEq (splitOnSlash b.1) (splitOnSlash key) = true) →
    (bestMatchLoop key l acc = none →
      acc = none ∧ ∀ p ∈ l, ¬ zipSegmentsEq (splitOnSlash p.1) (splitOnSlash key) = true) ∧
    (∀ b, bestMatchLoop key l acc = some b →
      (b ∈ l ∨ acc = some b) ∧
      zipSegmentsEq (splitOnSlash b.1) (splitOnSlash key) = true ∧
      (∀ p ∈ l, zipSegmentsEq (splitOnSlash p.1) (splitOnSlash key) = true →
        p.1.length ≤ b.1.length) ∧
      (∀ b0, acc = some b0 → b0.1.length ≤ b.1.length)) := by
  induction l with
  | nil =>
    intro acc hacc
    constructor
    · intro hres
      exact ⟨hres, by simp⟩
    · intro b hres
      have hab : acc = some b := hres
      refine ⟨Or.inr hab, hacc b hab, by simp, ?_⟩
      intro b0 hb0
      rw [hab] at hb0
      cases hb0
      exact le_refl _
  | cons hd t ih =>
    obtain ⟨rk, u⟩ := hd
    intro acc hacc
    by_cases hisP : zipSegmentsEq (splitOnSlash rk) (splitOnSlash key) = true
    · -- the head entry matches
      cases acc with
      | none =>
        have hstep : bestMatchLoop key ((rk, u) :: t) none =
            bestMatchLoop key t (some (rk, u)) := by
          simp only [bestMatchLoop, hisP, if_pos]
        obtain ⟨ihn, ihs⟩ := ih (some (rk, u))
          (by rintro b hb; cases hb; exact hisP)
        rw [hstep]
        constructor
        · intro hres
          exact absurd (ihn hres).1 (by simp)
        · intro b hres
          obtain ⟨hmem, hmatch, hmax, haccb⟩ := ihs b hres
          refine ⟨?_, hmatch, ?_, ?_⟩
          · rcases hmem with h' | h'
            · exact Or.inl (List.mem_cons_of_mem _ h')
            · exact Or.inl (by rw [(by injection h' : (rk, u) = b)]; exact List.mem_cons_self _ _)
          · intro p hp hpm
            rcases List.mem_cons.mp hp with rfl | hp'
            · exact haccb (rk, u) rfl
            · exact hmax p hp' hpm
          · intro b0 hb0
            cases hb0
      | some bp =>
        obtain ⟨bk, bu⟩ := bp
        by_cases himpr : bk.length < rk.length
        · have hstep : bestMatchLoop key ((rk, u) :: t) (some (bk, bu)) =
              bestMatchLoop key t (some (rk, u)) := by
            simp only [bestMatchLoop]
            rw [if_pos ⟨hisP, himpr⟩]
          obtain ⟨ihn, ihs⟩ := ih (some (rk, u))
            (by rintro b hb; cases hb; exact hisP)
          rw [hstep]
          constructor
          · intro hres
            exact absurd (ihn hres).1 (by simp)
          · intro b hres
            obtain ⟨hmem, hmatch, hmax, haccb⟩ := ihs b hres
            refine ⟨?_, hmatch, ?_, ?_⟩
            · rcases hmem with h' | h'
              · exact Or.inl (List.mem_cons_of_mem _ h')
              · exact Or.inl (by rw [(by injection h' : (rk, u) = b)]; exact List.mem_cons_self _ _)
            · intro p hp hpm
              rcases List.mem_cons.mp hp with rfl | hp'
              · exact haccb (rk, u) rfl
              · exact hmax p hp' hpm
            · intro b0 hb0
              cases hb0
              have hrkb : rk.length ≤ b.1.length := haccb (rk, u) rfl
              show bk.length ≤ b.1.length
              omega
        · have hstep : bestMatchLoop key ((rk, u) :: t) (some (bk, bu)) =
              bestMatchLoop key t (some (bk, bu)) := by
            simp only [bestMatchLoop]
            rw [if_neg (by rintro ⟨_, h2⟩; exact himpr h2)]
          obtain ⟨ihn, ihs⟩ := ih (some (bk, bu)) hacc
          rw [hstep]
          constructor
          · intro hres
            exact absurd (ihn hres).1 (by simp)
          · intro b hres
            obtain ⟨hmem, hmatch, hmax, haccb⟩ := ihs b hres
            refine ⟨?_, hmatch, ?_, haccb⟩
            · rcases hmem with h' | h'
              · exact Or.inl (List.mem_cons_of_mem _ h')
              · exact Or.inr h'
            · intro p hp hpm
              rcases List.mem_cons.mp hp with rfl | hp'
              · have hbk : bk.length ≤ b.1.length := haccb (bk, bu) rfl
                show rk.length ≤ b.1.length
                omega
              · exact hmax p hp' hpm
    · -- the head entry does not match: the accumulator passes through
      have hstep : bestMatchLoop key ((rk, u) :: t) acc =
          bestMatchLoop key t acc := by
        cases acc with
        | none =>
          simp only [bestMatchLoop]
          rw [if_neg hisP]
        | some bp =>
          obtain ⟨bk, bu⟩ := bp
          simp only [bestMatchLoop]
          rw [if_neg (by rintro ⟨h1, _⟩; exact hisP h1)]
      obtain ⟨ihn, ihs⟩ := ih acc hacc
      rw [hstep]
      constructor
      · intro hres
        obtain ⟨haccn, hnone⟩ := ihn hres
        refine ⟨haccn, ?_⟩
        intro p hp
        rcases List.mem_cons.mp hp with rfl | hp'
        · exact hisP
        · exact hnone p hp'
      · intro b hres
        obtain ⟨hmem, hmatch, hmax, haccb⟩ := ihs b hres
        refine ⟨?_, hmatch, ?_, haccb⟩
        · rcases hmem with h' | h'
          · exact Or.inl (List.mem_cons_of_mem _ h')
          · exact Or.inr h'
        · intro p hp hpm
          rcases List.mem_cons.mp hp with rfl | hp'
          · exact absurd hpm hisP
          · exact hmax p hp' hpm

/-- C3 (amended): `FileCoordinator::lookup` returns the exact entry's URL
when the key is present. Otherwise the entry returned is one whose
'/'-split key segments agree with the query's segments up to the SHORTER of
the two segment lists — the `zip` in the scan truncates, so a registered key
that extends the query also matches — of maximal key-string length among
matching entries; `NamespaceNotFound` exactly when no entry matches in that
truncated sense. -/
theorem fileCoordinator_lookup_behavior (d : List (List Byte × Url))
    (ns : TrackNamespace) :
    (∀ u, assocGet d (namespaceKey ns) = some u →
      FileCoordinator.lookup d ns = .ok (ns, u)) ∧
    (assocGet d (namespaceKey ns) = none →
      (FileCoordinator.lookup d ns = .error .NamespaceNotFound ↔
        ∀ p ∈ d, ¬ zipSegmentsEq (splitOnSlash p.1) (splitOnSlash (namespaceKey ns)) = true) ∧
      (∀ r, FileCoordinator.lookup d ns = .ok r →
        ∃ p, p ∈ d ∧ r = (TrackNamespace.fromUtf8Path p.1, p.2) ∧
          zipSegmentsEq (splitOnSlash p.1) (splitOnSlash (namespaceKey ns)) = true ∧
          ∀ q ∈ d, zipSegmentsEq (splitOnSlash q.1) (splitOnSlash (namespaceKey ns)) = true →
            q.1.length ≤ p.1.length)) := by
  constructor
  · intro u hget
    unfold FileCoordinator.lookup
    rw [hget]
  · intro hget
    obtain ⟨hn, hs⟩ := bestMatchLoop_spec (namespaceKey ns) d none (by rintro b ⟨⟩)
    constructor
    · constructor
      · intro hres
        unfold FileCoordinator.lookup at hres
        rw [hget] at hres
        cases hbm : bestMatchLoop (namespaceKey ns) d none with
        | none => exact (hn hbm).2
        | some b => rw [hbm] at hres; cases hres
      · intro hnomatch
        unfold FileCoordinator.lookup
        rw [hget]
        cases hbm : bestMatchLoop (namespaceKey ns) d none with
        | none => rfl
        | some b =>
          obtain ⟨hmem, hmatch, _, _⟩ := hs b hbm
          rcases hmem with h' | h'
          · exact absurd hmatch (hnomatch b h')
          · cases h'
    · intro r hres
      unfold FileCoordinator.lookup at hres
      rw [hget] at hres
      cases hbm : bestMatchLoop (namespaceKey ns) d none with
      | none => rw [hbm] at hres; cases hres
      | some b =>
        rw [hbm] at hres
        obtain ⟨hmem, hmatch, hmax, _⟩ := hs b hbm
        rcases hmem with h' | h'
        · obtain ⟨rfl⟩ : (TrackNamespace.fromUtf8Path b.1, b.2) = r := by injection hres
          exact ⟨b, h', rfl, hmatch, hmax⟩
        · cases h'

/-- Witness for C3's amended claim: exact lookup of `/a` in a file holding
`/a → u` returns `u`; with only `/a` registered, looking up `/a/b` (no exact
key) returns the zip-matching entry `/a` of maximal length. -/
theorem fileCoordinator_lookup_behavior_witness :
    FileCoordinator.lookup [([47, 97], "u")] ⟨[⟨[97]⟩]⟩ = .ok (⟨[⟨[97]⟩]⟩, "u") ∧
    (∃ p, p ∈ [([47, 97], "u")] ∧
      ((⟨[⟨[]⟩, ⟨[97]⟩]⟩ : TrackNamespace), "u") = (TrackNamespace.fromUtf8Path p.1, p.2) ∧
      zipSegmentsEq (splitOnSlash p.1)
        (splitOnSlash (namespaceKey ⟨[⟨[97]⟩, ⟨[98]⟩]⟩)) = true ∧
      ∀ q ∈ [([47, 97], "u")], zipSegmentsEq (splitOnSlash q.1)
        (splitOnSlash (namespaceKey ⟨[⟨[97]⟩, ⟨[98]⟩]⟩)) = true →
        q.1.length ≤ p.1.length) :=
  ⟨(fileCoordinator_lookup_behavior [([47, 97], "u")] ⟨[⟨[97]⟩]⟩).1 "u" rfl,
    ((fileCoordinator_lookup_behavior [([47, 97], "u")] ⟨[⟨[97]⟩, ⟨[98]⟩]⟩).2 rfl).2
      (⟨[⟨[]⟩, ⟨[97]⟩]⟩, "u") rfl⟩

/-- Counterexample to C3 as stated: with only `/a/b/c` registered, looking
up `/a/b` finds no exact key and no registered key that is an element-wise
prefix of the query — yet `lookup` returns the `/a/b/c` entry instead of
`NamespaceNotFound`, because the scan's `zip` truncates at the query's
length. -/
theorem fileCoordinator_lookup_counterexample :
    FileCoordinator.lookup [([47, 97, 47, 98, 47, 99], "u")] ⟨[⟨[97]⟩, ⟨[98]⟩]⟩ =
      .ok (⟨[⟨[]⟩, ⟨[97]⟩, ⟨[98]⟩, ⟨[99]⟩]⟩, "u") ∧
    assocGet [([47, 97, 47, 98, 47, 99], "u")]
      (namespaceKey ⟨[⟨[97]⟩, ⟨[98]⟩]⟩) = none ∧
    ¬ leadsList (splitOnSlash [47, 97, 47, 98, 47, 99])
      (splitOnSlash (namespaceKey ⟨[⟨[97]⟩, ⟨[98]⟩]⟩)) :=
  ⟨rfl, rfl, by decide⟩

-- After the overwrite branch of insert, the key maps to the new value.
theorem assocGet_map_overwrite (k : List Byte) (v : Url) :
    ∀ m : List (List Byte × Url), m.any (fun p => p.1 == k) = true →
    assocGet (m.map fun p => if p.1 == k then (k, v) else p) k = some v := by
  intro m
  induction m with
  | nil => intro h; cases h
  | cons hd t ih =>
    intro h
    by_cases hk : hd.1 == k
    · have hmap : (if (hd.1 == k) = true then (k, v) else hd) = (k, v) := if_pos hk
      simp only [assocGet, List.map_cons, hmap, List.find?_cons]
      have hkk : ((k, v).1 == k) = true := by simp
      rw [hkk]
      rfl
    · have ht : t.any (fun p => p.1 == k) = true := by
        rcases List.any_eq_true.mp h with ⟨p, hp, hpk⟩
        rcases List.mem_cons.mp hp with rfl | hp'
        · exact absurd hpk hk
        · exact List.any_eq_true.mpr ⟨p, hp', hpk⟩
      have := ih ht
      simp only [assocGet, List.map_cons, if_neg hk] at this ⊢
      rw [List.find?_cons_of_neg _ (by simpa using hk)]
      exact this

-- Appending a fresh binding makes the key retrievable when it was absent.
theorem assocGet_append_fresh (k : List Byte) (v : Url) :
    ∀ m : List (List Byte × Url), m.any (fun p => p.1 == k) = false →
    assocGet (m ++ [(k, v)]) k = some v := by
  intro m
  induction m with
  | nil => intro _; simp [assocGet]
  | cons hd t ih =>
    intro h
    rw [List.any_cons, Bool.or_eq_false_iff] at h
    simp only [assocGet, List.cons_append]
    rw [List.find?_cons_of_neg _ (by simpa using h.1)]
    exact ih h.2

-- Inserting always leaves the key bound to the inserted value.
theorem assocGet_assocInsert (m : List (List Byte × Url)) (k : List Byte) (v : Url) :
    assocGet (assocInsert m k v) k = some v := by
  unfold assocInsert
  by_cases h : m.any (fun p => p.1 == k) = true
  · rw [if_pos h]
    exact assocGet_map_overwrite k v m h
  · rw [if_neg h]
    exact assocGet_append_fresh k v m (Bool.eq_false_iff.mpr h)

/-- C10: `FileCoordinator::register_namespace` never fails with
`NamespaceAlreadyRegistered` — it succeeds for every namespace, including an
already-present key, whose stored relay URL it silently overwrites: an
exact lookup after registration returns this relay's URL. -/
theorem fileCoordinator_register_overwrites (d : List (List Byte × Url))
    (ns : TrackNamespace) (relayUrl : Url) :
    ∃ d', FileCoordinator.registerNamespace d ns relayUrl = .ok d' ∧
      FileCoordinator.lookup d' ns = .ok (ns, relayUrl) := by
  refine ⟨assocInsert d (namespaceKey ns) relayUrl, rfl, ?_⟩
  unfold FileCoordinator.lookup
  rw [assocGet_assocInsert]
